import Mathlib

/-!
Shallow embedding of the niconicoID-extractor survey-aggregation pipeline
(`app.py`): identifier extraction (`NICO_ID_RE.findall`), date normalization
(`format_date`), metadata resolution (`get_video_metadata`, with the two
network providers modelled as oracle functions), the per-run resolution
cache, row processing and vote emission, and the pandas aggregation /
ranking step of `process_data`.

Conventions of the embedding:
* Input rows are lists of cell strings as seen after Python's `str(...)`
  coercion; a missing cell (pandas `NaN`) appears as the string "nan",
  exactly as `str(float('nan'))` renders it in the source's checks.
* Network calls (`get_nico_metadata_api`, `yt_dlp.extract_info`) are
  oracles bundled in `Providers`; `none` is any failure/exception.
* `get_video_metadata` additionally returns a `Bool` recording whether the
  general-purpose provider (yt-dlp) was consulted, and the processing state
  keeps a `log` of the URLs on which `get_video_metadata` was invoked; both
  are pure instrumentation and do not influence any result value.
* All functions are structurally recursive so that concrete runs reduce
  inside the kernel.
-/

/-- Characters stripped by Python's `str.strip()` (ASCII whitespace; Python
also strips the rarer Unicode space characters, which never occur in the
claims' inputs). -/
def isPySpace (c : Char) : Bool :=
  c == ' ' || c == '\t' || c == '\n' || c == '\r' || c.toNat == 11 || c.toNat == 12

/-- Python's `str.strip()`: remove leading and trailing whitespace. -/
def pyStrip (s : String) : String :=
  String.mk (((s.data.dropWhile isPySpace).reverse.dropWhile isPySpace).reverse)

/-- Boolean code-point lexicographic comparison of char lists; a structural
(kernel-reducible) decision procedure for `List.lt`, hence for `String` `<`
as Python compares strings. -/
def charListLt : List Char → List Char → Bool
  | [], [] => false
  | [], _ :: _ => true
  | _ :: _, [] => false
  | a :: as, b :: bs => if a < b then true else if b < a then false else charListLt as bs

/-- Boolean string comparison used by the embedding of `sorted` and
`sort_values`. -/
def strLtB (s t : String) : Bool := charListLt s.data t.data

/-- Decimal digits of `n`, most significant first, with `fuel ≥ n + 1`
guaranteeing enough iterations; models Python's `str(int)` as used by the
f-string `f"匿名_{i}"`. -/
def natStrCore : Nat → Nat → List Char
  | 0, _ => []
  | fuel + 1, n =>
    if n < 10 then [Nat.digitChar n]
    else natStrCore fuel (n / 10) ++ [Nat.digitChar (n % 10)]

/-- Decimal string of a natural number (Python `str(i)`). -/
def natStr (n : Nat) : String := String.mk (natStrCore (n + 1) n)

/-- Zero-padded two-digit rendering, as `strftime('%m')` / `%d` produce. -/
def pad2 (n : Nat) : String := if n < 10 then "0" ++ natStr n else natStr n

/-- Numeric value of a list of decimal digit characters. -/
def natOfDigits (cs : List Char) : Nat := cs.foldl (fun a c => a * 10 + (c.toNat - 48)) 0

/-- Gregorian leap-year rule, as `datetime` validates day-of-month. -/
def isLeapYear (y : Nat) : Bool := (y % 4 == 0 && y % 100 != 0) || y % 400 == 0

/-- Number of days of month `m` in year `y` (`datetime` validity bound). -/
def daysInMonth (y m : Nat) : Nat :=
  if m = 2 then (if isLeapYear y then 29 else 28)
  else if m = 4 ∨ m = 6 ∨ m = 9 ∨ m = 11 then 30 else 31

/-- Embedding of `datetime.strptime(s, '%Y%m%d')` restricted to the shapes
`format_date` feeds it (the source guards `len(date_str) == 8`): the call
succeeds exactly on 8 decimal digits `YYYYMMDD` forming a valid calendar
date with year ≥ 1 (`%Y` consumes four digits, the month/day alternations
must consume two digits each to leave no unconverted data, and the
`datetime` constructor then validates the calendar ranges). -/
def strptimeYmd (s : String) : Option (Nat × Nat × Nat) :=
  let cs := s.data
  if cs.length = 8 && cs.all Char.isDigit then
    let y := natOfDigits (cs.take 4)
    let m := natOfDigits ((cs.drop 4).take 2)
    let d := natOfDigits (cs.drop 6)
    if 1 ≤ y && 1 ≤ m && m ≤ 12 && 1 ≤ d && d ≤ daysInMonth y m then some (y, m, d)
    else none
  else none

/-- Embedding of `format_date` (app.py lines 91-101): `None` / empty /
non-string inputs (all falsy or failing `isinstance`, modelled as `none`
or `""`) give the sentinel `"[不明]"`; an 8-character string that
`strptime('%Y%m%d')` accepts is reformatted by `strftime('%Y-%m-%d')`
(glibc `%Y` prints the year unpadded; every input here carries four year
digits so the year text is unchanged for years ≥ 1000); everything else is
returned unchanged via the bare `except: pass`. -/
def format_date : Option String → String
  | none => "[不明]"
  | some s =>
    if s = "" then "[不明]"
    else if s.length = 8 then
      match strptimeYmd s with
      | some (y, m, d) => natStr y ++ "-" ++ pad2 m ++ "-" ++ pad2 d
      | none => s
    else s

/-- Does a niconico id start here? First two characters of the alternatives
`sm\d+ | so\d+ | nm\d+` of `NICO_ID_RE`. -/
def nicoIdLead (c1 c2 : Char) : Bool :=
  (c1 == 's' && (c2 == 'm' || c2 == 'o')) || (c1 == 'n' && c2 == 'm')

/-- Left-to-right scan for non-overlapping matches of
`NICO_ID_RE = (sm\d+|so\d+|nm\d+)`: at each position, if the two-letter
lead is followed by at least one digit, the maximal digit run is taken and
scanning resumes after it, otherwise the scan advances one character.
`fuel` is an upper bound on the remaining list length, making the
recursion structural; it is initialised to the full length, which always
suffices since every step shortens the list. -/
def extractIdsCore : Nat → List Char → List String
  | 0, _ => []
  | fuel + 1, c1 :: c2 :: c3 :: rest =>
    if nicoIdLead c1 c2 && c3.isDigit then
      String.mk (c1 :: c2 :: (c3 :: rest).takeWhile Char.isDigit)
        :: extractIdsCore fuel ((c3 :: rest).dropWhile Char.isDigit)
    else extractIdsCore fuel (c2 :: c3 :: rest)
  | _ + 1, _ => []

/-- Embedding of `NICO_ID_RE.findall(s)`. -/
def extractIds (s : String) : List String := extractIdsCore s.data.length s.data

/-- Resolved video metadata (the dicts built by `get_nico_metadata_api` and
`get_video_metadata`). `video_id` is an `Option` because the source can
store `info.get('id')`, which may be `None`. -/
structure VideoRecord where
  video_id : Option String
  title : String
  uploader : String
  upload_date : String
  url : String
deriving DecidableEq

/-- Python truthiness of an optional string: `None` and `""` are falsy. -/
def truthy : Option String → Bool
  | none => false
  | some s => s != ""

/-- Python `x or d` for an optional string against a string default. -/
def pyOr (o : Option String) (d : String) : String :=
  match o with
  | none => d
  | some s => if s = "" then d else s

/-- Python `a or b` for two optional strings. -/
def pyOrOpt (a b : Option String) : Option String := if truthy a then a else b

/-- The fields `get_video_metadata` reads from a yt-dlp info dict or
playlist entry via `.get(...)`; `none` is an absent key. -/
structure YdlEntry where
  id : Option String
  url : Option String
  title : Option String
  uploader : Option String
  channel : Option String
  upload_date : Option String
deriving DecidableEq

/-- Result shape of `yt_dlp.extract_info`: a playlist (the dict has an
`entries` key, whose items may be falsy) or a single video. -/
inductive YdlInfo where
  | single (info : YdlEntry)
  | playlist (entries : List (Option YdlEntry))

/-- The two network providers as oracles. `nicoApi v` is the record
`get_nico_metadata_api(v)` would return (`none` on any failure: non-200,
bad XML, status ≠ ok, exception); `ydl u` is the info dict of
`yt_dlp.extract_info(u)` (`none` when it raises). -/
structure Providers where
  nicoApi : String → Option VideoRecord
  ydl : String → Option YdlInfo

/-- Python `v_id.startswith('sm') or v_id.startswith('so') or
v_id.startswith('nm')`. -/
def startsWithNico (s : String) : Bool :=
  match s.data with
  | c1 :: c2 :: _ => nicoIdLead c1 c2
  | _ => false

/-- The record built for a truthy playlist entry when the niconico API is
not preferred or failed (app.py lines 72-78). -/
def plainEntryRecord (url_str : String) (e : YdlEntry) : VideoRecord :=
  { video_id := pyOrOpt e.id e.url,
    title := pyOr e.title "[タイトル取得不可]",
    uploader := pyOr (pyOrOpt e.uploader e.channel) "[投稿者不明]",
    upload_date := format_date e.upload_date,
    url := pyOr e.url
      (if truthy e.id then "https://www.nicovideo.jp/watch/" ++ e.id.getD "" else url_str) }

/-- Per-entry resolution inside a playlist (app.py lines 62-78): entries
whose id looks like a niconico id are first retried against the dedicated
API. -/
def entryToRecord (p : Providers) (url_str : String) (e : YdlEntry) : VideoRecord :=
  if truthy e.id && startsWithNico (e.id.getD "") then
    match p.nicoApi (e.id.getD "") with
    | some nico_data => nico_data
    | none => plainEntryRecord url_str e
  else plainEntryRecord url_str e

/-- The yt-dlp arm of `get_video_metadata` (app.py lines 49-89). The `Bool`
is `true` because the general-purpose provider was consulted. -/
def ydlResolve (p : Providers) (url_str : String) : Option (List VideoRecord) × Bool :=
  match p.ydl url_str with
  | none => (none, true)
  | some (YdlInfo.playlist entries) =>
      (some (entries.filterMap (fun oe => oe.map (entryToRecord p url_str))), true)
  | some (YdlInfo.single info) =>
      (some [{ video_id := info.id,
               title := pyOr info.title "[タイトル取得不可]",
               uploader := pyOr (pyOrOpt info.uploader info.channel) "[投稿者不明]",
               upload_date := format_date info.upload_date,
               url := url_str }], true)

/-- Embedding of `get_video_metadata` (app.py lines 40-89): strip the URL,
look for niconico ids; on a hit try the dedicated API on the first id and
short-circuit on success, otherwise fall through to yt-dlp. The second
component records whether yt-dlp was consulted. -/
def get_video_metadata (p : Providers) (url : String) : Option (List VideoRecord) × Bool :=
  let url_str := pyStrip url
  match extractIds url_str with
  | vid :: _ =>
    match p.nicoApi vid with
    | some data => (some [data], false)
    | none => ydlResolve p url_str
  | [] => ydlResolve p url_str

/-- One vote: a respondent's selection of one resolved video (the dicts
appended to `all_votes`). -/
structure Vote where
  video_id : Option String
  title : String
  uploader : String
  upload_date : String
  respondent : String
deriving DecidableEq

/-- State threaded through the `process_data` row loop: the accumulated
votes, the per-run resolution cache (`video_meta_cache`), the respondent
vote counters (`respondent_counts`, an insertion-ordered dict), and the
instrumentation log of URLs actually passed to `get_video_metadata`. -/
structure PState where
  votes : List Vote
  cache : String → Option (Option (List VideoRecord))
  counts : List (String × Nat)
  log : List String

/-- Respondent extraction (app.py lines 119 and 124): column 1 if present,
the constant `"匿名"` when the row has no such column, and the
row-indexed `"匿名_{i}"` when the cell is the missing-value marker. -/
def respondentOf (row : List String) (i : Nat) : String :=
  let r := row.getD 1 "匿名"
  if r = "nan" then "匿名_" ++ natStr i else r

/-- URL cell extraction (app.py lines 120-121, 125-126): positional cell or
`""`, with the missing-value marker blanked. -/
def urlField (row : List String) (k : Nat) : String :=
  let u := row.getD k ""
  if u = "nan" then "" else u

/-- The URLs a row contributes (app.py line 134): both URL cells, stripped,
blank ones dropped. -/
def urlsOf (row : List String) : List String :=
  (([urlField row 3, urlField row 4]).map pyStrip).filter (fun u => u != "")

/-- Vote built from one resolved record (app.py lines 146-152). -/
def voteOfRecord (resp : String) (v : VideoRecord) : Vote :=
  { video_id := v.video_id, title := v.title, uploader := v.uploader,
    upload_date := v.upload_date, respondent := resp }

/-- Degraded vote synthesized from a bare extracted id when resolution
failed (app.py lines 158-162). -/
def degradedVote (resp n_id : String) : Vote :=
  { video_id := some n_id, title := "[情報取得不可]", uploader := "[取得不可]",
    upload_date := "[取得不可]", respondent := resp }

/-- Votes emitted for one URL given the (possibly cached) resolution
(app.py lines 144-163): a truthy result list yields one vote per record;
a falsy result (`None` or an empty list) falls back to regex id
extraction on the URL text. -/
def emitVotes (resp url : String) (results : Option (List VideoRecord)) : List Vote :=
  match results with
  | some (v :: vs) => (v :: vs).map (voteOfRecord resp)
  | _ => (extractIds url).map (degradedVote resp)

/-- Register a respondent in `respondent_counts` with 0 if absent
(app.py lines 131-132). -/
def registerResp (counts : List (String × Nat)) (resp : String) : List (String × Nat) :=
  if counts.any (fun q => q.1 == resp) then counts else counts ++ [(resp, 0)]

/-- Add `k` to a respondent's counter (the `+= 1` per emitted vote). -/
def bumpResp (counts : List (String × Nat)) (resp : String) (k : Nat) :
    List (String × Nat) :=
  counts.map (fun q => if q.1 = resp then (q.1, q.2 + k) else q)

/-- The body of the URL loop (app.py lines 136-163): consult the cache;
on a miss call `get_video_metadata`, store the result (failures included)
and log the call (the `time.sleep` rate-limit pause carries no state);
then emit the votes for the observed result. -/
def processUrl (p : Providers) (resp : String) (st : PState) (url : String) : PState :=
  match st.cache url with
  | some results =>
    let nv := emitVotes resp url results
    { st with votes := st.votes ++ nv, counts := bumpResp st.counts resp nv.length }
  | none =>
    let results := (get_video_metadata p url).1
    let nv := emitVotes resp url results
    { votes := st.votes ++ nv,
      cache := fun u => if u = url then some results else st.cache u,
      counts := bumpResp st.counts resp nv.length,
      log := st.log ++ [url] }

/-- One iteration of the row loop (app.py lines 116-163); the progress-bar
update carries no state. -/
def processRow (p : Providers) (st : PState) (i : Nat) (row : List String) : PState :=
  let resp := respondentOf row i
  let st1 := { st with counts := registerResp st.counts resp }
  (urlsOf row).foldl (processUrl p resp) st1

/-- Initial loop state. -/
def initState : PState :=
  { votes := [], cache := fun _ => none, counts := [], log := [] }

/-- The row loop from row index `i` (the `for i, row in df.iterrows()`
fold, with the default 0..n-1 index of `read_csv`). -/
def runRowsFrom (p : Providers) : Nat → PState → List (List String) → PState
  | _, st, [] => st
  | i, st, row :: rest => runRowsFrom p (i + 1) (processRow p st i row) rest

/-- The complete row loop of `process_data`. -/
def runRows (p : Providers) (rows : List (List String)) : PState :=
  runRowsFrom p 0 initState rows

/-- Reference (cache-free) vote emission for one row: every URL occurrence
is resolved afresh by `get_video_metadata`. Used to state that the cache
is semantically transparent. -/
def pureRowVotes (p : Providers) (i : Nat) (row : List String) : List Vote :=
  (urlsOf row).flatMap
    (fun u => emitVotes (respondentOf row i) u (get_video_metadata p u).1)

/-- Cache-free reference votes of a row list starting at row index `i`. -/
def pureVotesFrom (p : Providers) : Nat → List (List String) → List Vote
  | _, [] => []
  | i, row :: rest => pureRowVotes p i row ++ pureVotesFrom p (i + 1) rest

/-- Invariant of the row-loop state with respect to providers `p`: the
call log has no repeats and mirrors the cache domain, every cached value
is the resolver's (pure) answer for its URL, every counter entry equals
the number of accumulated votes of its respondent, and respondents with
no counter entry have no votes. -/
def PInv (p : Providers) (st : PState) : Prop :=
  st.log.Nodup
  ∧ (∀ u, u ∈ st.log ↔ st.cache u ≠ none)
  ∧ (∀ u r, st.cache u = some r → r = (get_video_metadata p u).1)
  ∧ (∀ q ∈ st.counts, q.2 = st.votes.countP (fun v => v.respondent == q.1))
  ∧ (∀ r : String, r ∉ st.counts.map Prod.fst →
      st.votes.countP (fun v => v.respondent == r) = 0)

/-- Insert a string into a sorted duplicate-free list, keeping it sorted
and duplicate-free; builds the embedding of `sorted(list(set(x)))`. -/
def insertSortedNoDup (a : String) : List String → List String
  | [] => [a]
  | b :: t =>
    if a = b then b :: t
    else if strLtB a b then a :: b :: t
    else b :: insertSortedNoDup a t

/-- Embedding of Python's `sorted(list(set(l)))`: the strictly increasing
enumeration of the distinct elements of `l`. -/
def sortedSet (l : List String) : List String := l.foldr insertSortedNoDup []

/-- One output row of the aggregation (`ranking` columns of app.py lines
174-184). `rank_dense` is `順位(被りなし)` and `rank_competition` is
`順位(被りあり)`. -/
structure RankingRow where
  video_id : String
  title : String
  upload_date : String
  uploader : String
  respondents : List String
  count : Nat
  rank_dense : Nat
  rank_competition : Nat
deriving DecidableEq

/-- Group keys of `votes_df.groupby('video_id')`: the distinct non-null
ids, in ascending order (pandas sorts group keys and drops missing ones). -/
def groupKeys (votes : List Vote) : List String :=
  sortedSet (votes.filterMap (fun v => v.video_id))

/-- The aggregated row of one group (app.py lines 174-181): first-seen
title/date/uploader, the sorted set of distinct respondents, and
`count = len(respondents)`; rank fields are filled later. The `""`
defaults are unreachable because a group key always has a vote. -/
def rowFor (votes : List Vote) (g : String) : RankingRow :=
  let vs := votes.filter (fun v => v.video_id == some g)
  let resps := sortedSet (vs.map (fun v => v.respondent))
  { video_id := g,
    title := ((vs.head?).map (fun v => v.title)).getD "",
    upload_date := ((vs.head?).map (fun v => v.upload_date)).getD "",
    uploader := ((vs.head?).map (fun v => v.uploader)).getD "",
    respondents := resps,
    count := resps.length,
    rank_dense := 0,
    rank_competition := 0 }

/-- Comparator of `sort_values(by=['count', 'video_id'],
ascending=[False, True])`: row `a` may precede row `b` iff `a` has the
larger count, or equal counts and `a.video_id ≤ b.video_id`. -/
def rowLe (a b : RankingRow) : Bool :=
  decide (b.count < a.count) || ((a.count == b.count) && !(strLtB b.video_id a.video_id))

/-- Sorted insertion for `rowLe`. -/
def insertRow (a : RankingRow) : List RankingRow → List RankingRow
  | [] => [a]
  | b :: t => if rowLe a b then a :: b :: t else b :: insertRow a t

/-- Sort of the grouped rows by `rowLe`; the sort keys `(count, video_id)`
are pairwise distinct (one row per id), so this is the unique sorted
arrangement `sort_values` produces. -/
def sortRows : List RankingRow → List RankingRow
  | [] => []
  | a :: t => insertRow a (sortRows t)

/-- Rank assignment after the sort (app.py lines 183-184): position-based
`range(1, len+1)` for the dense rank, and pandas
`rank(ascending=False, method='min')` for the competition rank, which for
each row is 1 + the number of rows (anywhere in the table) with a
strictly larger count. -/
def assignRanksFrom (all : List RankingRow) : Nat → List RankingRow → List RankingRow
  | _, [] => []
  | i, r :: t =>
    { r with rank_dense := i + 1,
             rank_competition := 1 + all.countP (fun s => decide (r.count < s.count)) }
      :: assignRanksFrom all (i + 1) t

/-- The aggregation step of `process_data` (app.py lines 174-184). -/
def aggregate (votes : List Vote) : List RankingRow :=
  let sorted := sortRows ((groupKeys votes).map (rowFor votes))
  assignRanksFrom sorted 0 sorted

/-- Embedding of `process_data` (app.py lines 103-186): `(None, [])` on an
empty input or when no vote was collected, otherwise the ranking table
plus the advisory list of respondents whose vote count differs from the
quota of 10 (in `respondent_counts` insertion order). -/
def process_data (p : Providers) (rows : List (List String)) :
    Option (List RankingRow) × List String :=
  if rows.length = 0 then (none, [])
  else
    let st := runRows p rows
    if st.votes = [] then (none, [])
    else (some (aggregate st.votes),
          (st.counts.filter (fun q => q.2 != 10)).map Prod.fst)

/-- Providers on which every lookup fails. -/
def failingProviders : Providers :=
  { nicoApi := fun _ => none, ydl := fun _ => none }

/-- Simple niconico-API oracle used by concrete witnesses: every id
resolves, with synthetic metadata derived from the id. -/
def stubNicoProviders : Providers :=
  { nicoApi := fun v => some
      { video_id := some v, title := "T" ++ v, uploader := "U" ++ v,
        upload_date := "2024-01-01 00:00:00",
        url := "https://www.nicovideo.jp/watch/" ++ v },
    ydl := fun _ => none }

/-- Vote list of the spec scenario: three videos selected by 3, 3 and 1
distinct respondents. -/
def scenarioVotes : List Vote :=
  [{ video_id := some "a", title := "ta", uploader := "ua", upload_date := "d", respondent := "r1" },
   { video_id := some "a", title := "ta", uploader := "ua", upload_date := "d", respondent := "r2" },
   { video_id := some "a", title := "ta", uploader := "ua", upload_date := "d", respondent := "r3" },
   { video_id := some "b", title := "tb", uploader := "ub", upload_date := "d", respondent := "r1" },
   { video_id := some "b", title := "tb", uploader := "ub", upload_date := "d", respondent := "r2" },
   { video_id := some "b", title := "tb", uploader := "ub", upload_date := "d", respondent := "r3" },
   { video_id := some "c", title := "tc", uploader := "uc", upload_date := "d", respondent := "r1" }]

/-- Vote list in which one respondent selects the same video twice. -/
def dupVotes : List Vote :=
  [{ video_id := some "x", title := "t", uploader := "u", upload_date := "d", respondent := "R" },
   { video_id := some "x", title := "t", uploader := "u", upload_date := "d", respondent := "R" }]

/-- The single ranking row produced by `dupVotes`. -/
def dupRow : RankingRow :=
  { video_id := "x", title := "t", upload_date := "d", uploader := "u",
    respondents := ["R"], count := 1, rank_dense := 1, rank_competition := 1 }

/-! ## String-order bridge and decimal-string facts -/

theorem charListLt_iff : ∀ as bs : List Char, charListLt as bs = true ↔ as < bs
  | [], [] => by
    simp only [charListLt, Bool.false_eq_true, false_iff]
    intro h; cases h
  | [], b :: bs => by
    simp only [charListLt, true_iff]
    exact List.Lex.nil
  | a :: as, [] => by
    simp only [charListLt, Bool.false_eq_true, false_iff]
    intro h; cases h
  | a :: as, b :: bs => by
    simp only [charListLt]
    split_ifs with h1 h2
    · simp only [true_iff]
      exact List.Lex.rel h1
    · simp only [Bool.false_eq_true, false_iff]
      intro h; cases h with
      | cons h => exact absurd h2 (lt_irrefl _)
      | rel h => exact h1 h
    · have hab : a = b := le_antisymm (not_lt.mp h2) (not_lt.mp h1)
      subst hab
      rw [charListLt_iff as bs]
      constructor
      · intro h; exact List.Lex.cons h
      · intro h; cases h with
        | cons h => exact h
        | rel h => exact absurd h h1

theorem strLtB_iff (s t : String) : strLtB s t = true ↔ s < t := by
  rw [String.lt_iff_toList_lt]
  exact charListLt_iff s.data t.data

theorem strLeB_iff (s t : String) : strLtB t s = false ↔ s ≤ t := by
  rw [← not_lt, ← strLtB_iff]
  cases h : strLtB t s <;> simp

theorem digitChar_val : ∀ n, n < 10 → (Nat.digitChar n).toNat - 48 = n := by decide

theorem natStrCore_foldl : ∀ fuel n a, n < fuel →
    List.foldl (fun a c => a * 10 + (c.toNat - 48)) a (natStrCore fuel n)
      = a * 10 ^ (natStrCore fuel n).length + n := by
  intro fuel
  induction fuel with
  | zero => intro n a h; omega
  | succ fuel ih =>
    intro n a h
    by_cases h10 : n < 10
    · simp only [natStrCore, if_pos h10, List.foldl_cons, List.foldl_nil, List.length_cons,
        List.length_nil, pow_one, zero_add, digitChar_val n h10]
    · have hdiv : n / 10 < fuel := by omega
      simp only [natStrCore, if_neg h10, List.foldl_append, List.foldl_cons, List.foldl_nil,
        List.length_append, List.length_cons, List.length_nil, ih (n / 10) a hdiv]
      have hmod : (Nat.digitChar (n % 10)).toNat - 48 = n % 10 := digitChar_val _ (by omega)
      rw [hmod, pow_succ]
      have := Nat.div_add_mod n 10
      set L := (natStrCore fuel (n / 10)).length
      ring_nf
      omega

theorem natOfDigits_natStr (n : Nat) : natOfDigits (natStr n).data = n := by
  have := natStrCore_foldl (n + 1) n 0 (Nat.lt_succ_self n)
  simpa [natStr, natOfDigits] using this

theorem natStr_inj {m n : Nat} (h : natStr m = natStr n) : m = n := by
  have := natOfDigits_natStr m
  rw [h, natOfDigits_natStr] at this
  omega

theorem string_append_left_cancel {p s t : String} (h : p ++ s = p ++ t) : s = t := by
  cases p; cases s; cases t
  simp only [HAppend.hAppend, Append.append, String.append] at h
  injection h with h2
  exact congrArg _ (List.append_cancel_left h2)

/-! ## Facts about `sortedSet` -/

theorem mem_insertSortedNoDup (a x : String) :
    ∀ l : List String, x ∈ insertSortedNoDup a l ↔ x = a ∨ x ∈ l
  | [] => by simp [insertSortedNoDup]
  | b :: t => by
    simp only [insertSortedNoDup]
    split_ifs with h1 h2
    · subst h1
      simp only [List.mem_cons]
      tauto
    · simp only [List.mem_cons]
    · simp only [List.mem_cons, mem_insertSortedNoDup a x t]
      tauto

theorem pairwise_insertSortedNoDup (a : String) :
    ∀ l : List String, l.Pairwise (· < ·) → (insertSortedNoDup a l).Pairwise (· < ·)
  | [], _ => by simp [insertSortedNoDup]
  | b :: t, h => by
    rw [List.pairwise_cons] at h
    obtain ⟨hb, ht⟩ := h
    simp only [insertSortedNoDup]
    split_ifs with h1 h2
    · subst h1
      exact List.pairwise_cons.mpr ⟨hb, ht⟩
    · rw [strLtB_iff] at h2
      refine List.pairwise_cons.mpr ⟨?_, List.pairwise_cons.mpr ⟨hb, ht⟩⟩
      intro x hx
      rcases List.mem_cons.mp hx with rfl | hx
      · exact h2
      · exact lt_trans h2 (hb x hx)
    · have hba : b < a := by
        rcases lt_trichotomy a b with hlt | heq | hgt
        · exact absurd ((strLtB_iff a b).mpr hlt) (by simp [h2])
        · exact absurd heq h1
        · exact hgt
      refine List.pairwise_cons.mpr ⟨?_, pairwise_insertSortedNoDup a t ht⟩
      intro x hx
      rcases (mem_insertSortedNoDup a x t).mp hx with rfl | hx
      · exact hba
      · exact hb x hx

theorem sortedSet_pairwise : ∀ l : List String, (sortedSet l).Pairwise (· < ·)
  | [] => List.Pairwise.nil
  | a :: t => pairwise_insertSortedNoDup a (sortedSet t) (sortedSet_pairwise t)

theorem mem_sortedSet (x : String) : ∀ l : List String, x ∈ sortedSet l ↔ x ∈ l
  | [] => Iff.rfl
  | a :: t => by
    simp only [sortedSet, List.foldr_cons, List.mem_cons]
    rw [mem_insertSortedNoDup]
    rw [show List.foldr insertSortedNoDup [] t = sortedSet t from rfl, mem_sortedSet x t]

theorem sortedSet_nodup (l : List String) : (sortedSet l).Nodup :=
  (sortedSet_pairwise l).imp ne_of_lt

/-! ## Facts about the ranking sort and rank assignment -/

theorem rowLe_iff (a b : RankingRow) :
    rowLe a b = true ↔
      b.count < a.count ∨ (a.count = b.count ∧ a.video_id ≤ b.video_id) := by
  simp only [rowLe, Bool.or_eq_true, Bool.and_eq_true, decide_eq_true_eq, beq_iff_eq,
    Bool.not_eq_eq_eq_not, Bool.not_true, strLeB_iff]

theorem rowLe_total (a b : RankingRow) : rowLe a b = true ∨ rowLe b a = true := by
  rw [rowLe_iff, rowLe_iff]
  rcases lt_trichotomy a.count b.count with h | h | h
  · exact Or.inr (Or.inl h)
  · rcases le_total a.video_id b.video_id with hs | hs
    · exact Or.inl (Or.inr ⟨h, hs⟩)
    · exact Or.inr (Or.inr ⟨h.symm, hs⟩)
  · exact Or.inl (Or.inl h)

theorem rowLe_trans {a b c : RankingRow} (hab : rowLe a b = true) (hbc : rowLe b c = true) :
    rowLe a c = true := by
  rw [rowLe_iff] at hab hbc ⊢
  rcases hab with h1 | ⟨h1, h1s⟩ <;> rcases hbc with h2 | ⟨h2, h2s⟩
  · exact Or.inl (lt_trans h2 h1)
  · exact Or.inl (h2 ▸ h1)
  · exact Or.inl (h1 ▸ h2)
  · exact Or.inr ⟨h1.trans h2, le_trans h1s h2s⟩

theorem insertRow_perm (a : RankingRow) :
    ∀ l : List RankingRow, (insertRow a l).Perm (a :: l)
  | [] => List.Perm.refl _
  | b :: t => by
    simp only [insertRow]
    split_ifs with h
    · exact List.Perm.refl _
    · exact ((insertRow_perm a t).cons b).trans (List.Perm.swap a b t)

theorem sortRows_perm : ∀ l : List RankingRow, (sortRows l).Perm l
  | [] => List.Perm.refl _
  | a :: t => (insertRow_perm a (sortRows t)).trans ((sortRows_perm t).cons a)

theorem insertRow_sorted (a : RankingRow) :
    ∀ l : List RankingRow, l.Pairwise (fun x y => rowLe x y = true) →
      (insertRow a l).Pairwise (fun x y => rowLe x y = true)
  | [], _ => by simp [insertRow]
  | b :: t, h => by
    rw [List.pairwise_cons] at h
    obtain ⟨hb, ht⟩ := h
    simp only [insertRow]
    split_ifs with hab
    · refine List.pairwise_cons.mpr ⟨?_, List.pairwise_cons.mpr ⟨hb, ht⟩⟩
      intro x hx
      rcases List.mem_cons.mp hx with rfl | hx
      · exact hab
      · exact rowLe_trans hab (hb x hx)
    · have hba : rowLe b a = true := (rowLe_total a b).resolve_left (by simp [hab])
      refine List.pairwise_cons.mpr ⟨?_, insertRow_sorted a t ht⟩
      intro x hx
      rcases List.mem_cons.mp ((insertRow_perm a t).mem_iff.mp hx) with rfl | hx
      · exact hba
      · exact hb x hx

theorem sortRows_sorted : ∀ l : List RankingRow,
    (sortRows l).Pairwise (fun x y => rowLe x y = true)
  | [] => List.Pairwise.nil
  | a :: t => insertRow_sorted a (sortRows t) (sortRows_sorted t)

theorem assignRanksFrom_length (all : List RankingRow) :
    ∀ (i : Nat) (l : List RankingRow), (assignRanksFrom all i l).length = l.length
  | _, [] => rfl
  | i, _ :: t => by
    simp only [assignRanksFrom, List.length_cons, assignRanksFrom_length all (i + 1) t]

theorem assignRanksFrom_get (all : List RankingRow) :
    ∀ (l : List RankingRow) (i k : Nat) (hk1 : k < (assignRanksFrom all i l).length)
      (hk2 : k < l.length),
      (assignRanksFrom all i l).get ⟨k, hk1⟩
        = { l.get ⟨k, hk2⟩ with
            rank_dense := i + k + 1,
            rank_competition :=
              1 + all.countP (fun s => decide ((l.get ⟨k, hk2⟩).count < s.count)) }
  | r :: t, i, 0, _, _ => by simp [assignRanksFrom]
  | r :: t, i, k + 1, hk1, hk2 => by
    simp only [assignRanksFrom, List.get_cons_succ]
    rw [assignRanksFrom_get all t (i + 1) k _ (by simpa using hk2)]
    simp only [List.get_cons_succ]
    congr 1
    omega

theorem assignRanksFrom_map_dense (all : List RankingRow) :
    ∀ (i : Nat) (l : List RankingRow),
      (assignRanksFrom all i l).map (fun r => r.rank_dense) = List.range' (i + 1) l.length
  | _, [] => rfl
  | i, r :: t => by
    simp only [assignRanksFrom, List.map_cons, List.length_cons, List.range'_succ,
      assignRanksFrom_map_dense all (i + 1) t]

theorem assignRanksFrom_mem {all : List RankingRow} :
    ∀ {l : List RankingRow} {i : Nat} {r : RankingRow}, r ∈ assignRanksFrom all i l →
      ∃ r0 ∈ l, r.video_id = r0.video_id ∧ r.title = r0.title
        ∧ r.upload_date = r0.upload_date ∧ r.uploader = r0.uploader
        ∧ r.respondents = r0.respondents ∧ r.count = r0.count
        ∧ r.rank_competition = 1 + all.countP (fun s => decide (r0.count < s.count))
  | r0 :: t, i, r, h => by
    rcases List.mem_cons.mp h with rfl | h
    · exact ⟨r0, List.mem_cons_self r0 t, rfl, rfl, rfl, rfl, rfl, rfl, rfl⟩
    · obtain ⟨r1, hr1, hfields⟩ := assignRanksFrom_mem h
      exact ⟨r1, List.mem_cons_of_mem r0 hr1, hfields⟩

theorem assignRanksFrom_map_vid (all : List RankingRow) :
    ∀ (i : Nat) (l : List RankingRow),
      (assignRanksFrom all i l).map (fun r => r.video_id) = l.map (fun r => r.video_id)
  | _, [] => rfl
  | i, r :: t => by
    simp only [assignRanksFrom, List.map_cons, assignRanksFrom_map_vid all (i + 1) t]

theorem assignRanksFrom_map_count (all : List RankingRow) :
    ∀ (i : Nat) (l : List RankingRow),
      (assignRanksFrom all i l).map (fun r => r.count) = l.map (fun r => r.count)
  | _, [] => rfl
  | i, r :: t => by
    simp only [assignRanksFrom, List.map_cons, assignRanksFrom_map_count all (i + 1) t]

/-- In a list whose counts are non-increasing, the rows with count
strictly above `c` form exactly the prefix of length
`countP (c < ·.count)`. -/
theorem countP_sorted_desc (c : Nat) :
    ∀ R : List RankingRow, R.Pairwise (fun x y => y.count ≤ x.count) →
      (∀ k (hk : k < R.length), k < R.countP (fun s => decide (c < s.count)) →
        c < (R.get ⟨k, hk⟩).count)
      ∧ (∀ k (hk : k < R.length), R.countP (fun s => decide (c < s.count)) ≤ k →
        (R.get ⟨k, hk⟩).count ≤ c)
  | [], _ => by constructor <;> intro k hk <;> exact absurd hk (by simp)
  | r :: t, h => by
    rw [List.pairwise_cons] at h
    obtain ⟨hr, ht⟩ := h
    obtain ⟨ih1, ih2⟩ := countP_sorted_desc c t ht
    by_cases hcr : c < r.count
    · have hcnt : (r :: t).countP (fun s => decide (c < s.count))
          = t.countP (fun s => decide (c < s.count)) + 1 := by
        rw [List.countP_cons]
        simp [hcr]
      constructor
      · intro k hk hklt
        match k with
        | 0 => exact hcr
        | k + 1 =>
          rw [List.get_cons_succ]
          exact ih1 k (by simpa using hk) (by omega)
      · intro k hk hkge
        match k with
        | 0 => omega
        | k + 1 =>
          rw [List.get_cons_succ]
          exact ih2 k (by simpa using hk) (by omega)
    · have hnone : ∀ x ∈ t, ¬ c < x.count := by
        intro x hx
        have := hr x hx
        omega
      have hcnt : (r :: t).countP (fun s => decide (c < s.count)) = 0 := by
        rw [List.countP_cons, List.countP_eq_zero.mpr (by intro x hx; simpa using hnone x hx)]
        simp [hcr]
      constructor
      · intro k hk hklt
        omega
      · intro k hk _
        match k with
        | 0 =>
          show r.count ≤ c
          omega
        | k + 1 =>
          rw [List.get_cons_succ]
          have hm : k < t.length := by simpa using hk
          have := hnone (t.get ⟨k, hm⟩) (List.get_mem t k hm)
          omega

/-- The strict ordering relation realized by the ranking sort:
`selection_count` descending, ties broken by `video_id` ascending. -/
def rankKeyLt (a b : RankingRow) : Prop :=
  b.count < a.count ∨ (a.count = b.count ∧ a.video_id < b.video_id)

theorem aggregate_eq (votes : List Vote) :
    aggregate votes
      = assignRanksFrom (sortRows ((groupKeys votes).map (rowFor votes))) 0
          (sortRows ((groupKeys votes).map (rowFor votes))) := rfl

theorem aggregate_map_vid (votes : List Vote) :
    ((aggregate votes).map (fun r => r.video_id)).Perm (groupKeys votes) := by
  rw [aggregate_eq, assignRanksFrom_map_vid]
  have hperm := (sortRows_perm ((groupKeys votes).map (rowFor votes))).map
    (fun r => r.video_id)
  rw [List.map_map] at hperm
  have : ((groupKeys votes).map (fun g => (rowFor votes g).video_id)) = groupKeys votes := by
    apply List.map_id''
    intro g
    rfl
  rw [show ((fun r : RankingRow => r.video_id) ∘ rowFor votes)
      = fun g => (rowFor votes g).video_id from rfl, this] at hperm
  exact hperm

theorem aggregate_vid_nodup (votes : List Vote) :
    ((aggregate votes).map (fun r => r.video_id)).Nodup :=
  (aggregate_map_vid votes).symm.nodup (sortedSet_nodup _)

theorem assignRanksFrom_pairwise {S : RankingRow → RankingRow → Prop}
    (hS : ∀ a b a2 b2, a2.count = a.count → a2.video_id = a.video_id →
      b2.count = b.count → b2.video_id = b.video_id → S a b → S a2 b2)
    (all : List RankingRow) :
    ∀ (i : Nat) (l : List RankingRow), l.Pairwise S → (assignRanksFrom all i l).Pairwise S
  | _, [], _ => List.Pairwise.nil
  | i, r :: t, h => by
    rw [List.pairwise_cons] at h
    obtain ⟨hr, ht⟩ := h
    refine List.pairwise_cons.mpr ⟨?_, assignRanksFrom_pairwise hS all (i + 1) t ht⟩
    intro x hx
    obtain ⟨x0, hx0, hvid, _, _, _, _, hcount, _⟩ := assignRanksFrom_mem hx
    exact hS r x0 _ x rfl rfl hcount hvid (hr x0 hx0)

theorem aggregate_sorted_le (votes : List Vote) :
    (aggregate votes).Pairwise (fun x y => rowLe x y = true) := by
  rw [aggregate_eq]
  refine assignRanksFrom_pairwise ?_ _ 0 _ (sortRows_sorted _)
  intro a b a2 b2 hac hav hbc hbv h
  rw [rowLe_iff] at h ⊢
  rw [hac, hav, hbc, hbv]
  exact h

theorem aggregate_pairwise_strict (votes : List Vote) :
    (aggregate votes).Pairwise rankKeyLt := by
  have hle := aggregate_sorted_le votes
  have hnodup := aggregate_vid_nodup votes
  rw [List.Nodup, List.pairwise_map] at hnodup
  refine (hle.and hnodup).imp ?_
  intro a b hab
  obtain ⟨hab, hne⟩ := hab
  rw [rowLe_iff] at hab
  rcases hab with h | ⟨hc, hid⟩
  · exact Or.inl h
  · exact Or.inr ⟨hc, lt_of_le_of_ne hid hne⟩

theorem countP_count_congr {l1 l2 : List RankingRow}
    (h : l1.map (fun r => r.count) = l2.map (fun r => r.count)) (c : Nat) :
    l1.countP (fun s => decide (c < s.count)) = l2.countP (fun s => decide (c < s.count)) := by
  have key : ∀ l : List RankingRow,
      l.countP (fun s => decide (c < s.count))
        = (l.map (fun r => r.count)).countP (fun n => decide (c < n)) := by
    intro l
    induction l with
    | nil => rfl
    | cons a t ih => simp [List.countP_cons, ih]
  rw [key, key, h]

theorem aggregate_countP_eq (votes : List Vote) (c : Nat) :
    (aggregate votes).countP (fun s => decide (c < s.count))
      = (sortRows ((groupKeys votes).map (rowFor votes))).countP
          (fun s => decide (c < s.count)) :=
  countP_count_congr (by rw [aggregate_eq, assignRanksFrom_map_count]) c

theorem aggregate_mem_comp (votes : List Vote) (r : RankingRow) (hr : r ∈ aggregate votes) :
    r.rank_competition = 1 + (aggregate votes).countP (fun s => decide (r.count < s.count)) := by
  rw [aggregate_eq] at hr
  obtain ⟨r0, _, _, _, _, _, _, hcount, hcomp⟩ := assignRanksFrom_mem hr
  rw [hcomp, hcount, aggregate_countP_eq]

theorem aggregate_mem_group (votes : List Vote) (r : RankingRow) (hr : r ∈ aggregate votes) :
    r.video_id ∈ groupKeys votes
    ∧ r.respondents
        = sortedSet ((votes.filter (fun v => v.video_id == some r.video_id)).map
            (fun v => v.respondent))
    ∧ r.count = r.respondents.length := by
  rw [aggregate_eq] at hr
  obtain ⟨r0, hr0, hvid, _, _, _, hresp, hcount, _⟩ := assignRanksFrom_mem hr
  have hr0base : r0 ∈ (groupKeys votes).map (rowFor votes) :=
    (sortRows_perm _).mem_iff.mp hr0
  obtain ⟨g, hg, hrow⟩ := List.mem_map.mp hr0base
  have hvid2 : r.video_id = g := by
    rw [hvid, ← hrow]
    rfl
  subst hrow
  refine ⟨hvid2 ▸ hg, ?_, ?_⟩
  · rw [hresp, hvid2]
    rfl
  · rw [hcount, hresp]
    rfl

theorem aggregate_counts_desc (votes : List Vote) :
    (aggregate votes).Pairwise (fun x y => y.count ≤ x.count) := by
  refine (aggregate_sorted_le votes).imp ?_
  intro a b h
  rw [rowLe_iff] at h
  rcases h with h | ⟨h, _⟩ <;> omega

theorem aggregate_get_dense (votes : List Vote) (k : Nat)
    (hk : k < (aggregate votes).length) :
    ((aggregate votes).get ⟨k, hk⟩).rank_dense = k + 1 := by
  have hlen := assignRanksFrom_length (sortRows ((groupKeys votes).map (rowFor votes))) 0
    (sortRows ((groupKeys votes).map (rowFor votes)))
  have hk1 : k < (assignRanksFrom (sortRows ((groupKeys votes).map (rowFor votes))) 0
      (sortRows ((groupKeys votes).map (rowFor votes)))).length := hk
  have hk2 : k < (sortRows ((groupKeys votes).map (rowFor votes))).length := by omega
  have hget := assignRanksFrom_get (sortRows ((groupKeys votes).map (rowFor votes)))
    (sortRows ((groupKeys votes).map (rowFor votes))) 0 k hk1 hk2
  have : ((aggregate votes).get ⟨k, hk⟩).rank_dense
      = ((assignRanksFrom (sortRows ((groupKeys votes).map (rowFor votes))) 0
          (sortRows ((groupKeys votes).map (rowFor votes)))).get ⟨k, hk1⟩).rank_dense := rfl
  rw [this, hget]
  show 0 + k + 1 = k + 1
  omega

theorem aggregate_get_comp (votes : List Vote) (k : Nat)
    (hk : k < (aggregate votes).length) :
    ((aggregate votes).get ⟨k, hk⟩).rank_competition
      = 1 + (aggregate votes).countP
          (fun s => decide (((aggregate votes).get ⟨k, hk⟩).count < s.count)) :=
  aggregate_mem_comp votes _ (List.get_mem _ k hk)

/-- C3: every output row carries the sorted, duplicate-free set of the
respondents who voted for that video id, and `selection_count` is the
cardinality of that set. -/
theorem c3_respondent_dedup (votes : List Vote) (r : RankingRow)
    (hr : r ∈ aggregate votes) :
    r.respondents.Pairwise (· < ·)
    ∧ r.respondents.Nodup
    ∧ (∀ s : String, s ∈ r.respondents ↔
        ∃ v ∈ votes, v.video_id = some r.video_id ∧ v.respondent = s)
    ∧ r.count = r.respondents.length := by
  obtain ⟨hg, hresp, hcount⟩ := aggregate_mem_group votes r hr
  refine ⟨?_, ?_, ?_, hcount⟩
  · rw [hresp]
    exact sortedSet_pairwise _
  · rw [hresp]
    exact sortedSet_nodup _
  · intro s
    rw [hresp, mem_sortedSet]
    simp only [List.mem_map, List.mem_filter, beq_iff_eq]
    constructor
    · rintro ⟨v, ⟨hv, hvid⟩, hs⟩
      exact ⟨v, hv, hvid, hs⟩
    · rintro ⟨v, hv, hvid, hs⟩
      exact ⟨v, ⟨hv, hvid⟩, hs⟩

/-- Witness for C3: a respondent who selected the same video twice appears
exactly once in that video's respondent set, and the count is the
deduplicated size. -/
theorem c3_respondent_dedup_witness :
    dupRow ∈ aggregate dupVotes
    ∧ dupRow.count = dupRow.respondents.length
    ∧ dupRow.respondents.Nodup
    ∧ dupRow.respondents = ["R"] := by
  have hmem : dupRow ∈ aggregate dupVotes := by decide
  have h := c3_respondent_dedup dupVotes dupRow hmem
  exact ⟨hmem, h.2.2.2, h.2.1, by decide⟩

/-- C1: the aggregated table is sorted by selection count descending with
ties broken by video id ascending (strictly: ids are pairwise distinct);
`rank_dense` is exactly the 1-based position 1..N in that order;
`rank_competition` is the minimum-rank convention (1 + the number of rows
with strictly larger count), so rows of equal count share it and it equals
the dense rank of the first row of the tie group; and the 3,3,1 scenario
receives dense ranks 1,2,3 and competition ranks 1,1,3. -/
theorem c1_sort_and_ranks (votes : List Vote) (hne : votes ≠ []) :
    ((aggregate votes).Pairwise rankKeyLt)
    ∧ ((aggregate votes).map (fun r => r.rank_dense)
        = List.range' 1 (aggregate votes).length)
    ∧ (∀ r ∈ aggregate votes,
        r.rank_competition
          = 1 + (aggregate votes).countP (fun s => decide (r.count < s.count)))
    ∧ (∀ a ∈ aggregate votes, ∀ b ∈ aggregate votes,
        a.count = b.count → a.rank_competition = b.rank_competition)
    ∧ (∀ k, ∀ hk : k < (aggregate votes).length,
        ∃ j, ∃ hj : j < (aggregate votes).length, j ≤ k
          ∧ ((aggregate votes).get ⟨j, hj⟩).count = ((aggregate votes).get ⟨k, hk⟩).count
          ∧ (∀ m, ∀ hm : m < (aggregate votes).length, m < j →
              ((aggregate votes).get ⟨k, hk⟩).count < ((aggregate votes).get ⟨m, hm⟩).count)
          ∧ ((aggregate votes).get ⟨k, hk⟩).rank_competition
              = ((aggregate votes).get ⟨j, hj⟩).rank_dense)
    ∧ ((aggregate scenarioVotes).map (fun r => (r.video_id, r.rank_dense, r.rank_competition))
        = [("a", 1, 1), ("b", 2, 1), ("c", 3, 3)]) := by
  refine ⟨aggregate_pairwise_strict votes, ?_, aggregate_mem_comp votes, ?_, ?_, by decide⟩
  · have hlen := assignRanksFrom_length (sortRows ((groupKeys votes).map (rowFor votes))) 0
      (sortRows ((groupKeys votes).map (rowFor votes)))
    have hmap := assignRanksFrom_map_dense (sortRows ((groupKeys votes).map (rowFor votes))) 0
      (sortRows ((groupKeys votes).map (rowFor votes)))
    rw [aggregate_eq, hmap, hlen]
  · intro a ha b hb hcount
    rw [aggregate_mem_comp votes a ha, aggregate_mem_comp votes b hb, hcount]
  · intro k hk
    obtain ⟨part1, part2⟩ :=
      countP_sorted_desc ((aggregate votes).get ⟨k, hk⟩).count (aggregate votes)
        (aggregate_counts_desc votes)
    have hgk : (aggregate votes).countP
        (fun s => decide (((aggregate votes).get ⟨k, hk⟩).count < s.count)) ≤ k := by
      by_contra h
      push_neg at h
      exact absurd (part1 k hk h) (lt_irrefl _)
    have hglen : (aggregate votes).countP
        (fun s => decide (((aggregate votes).get ⟨k, hk⟩).count < s.count))
          < (aggregate votes).length := lt_of_le_of_lt hgk hk
    refine ⟨_, hglen, hgk, ?_, ?_, ?_⟩
    · refine le_antisymm (part2 _ hglen (le_refl _)) ?_
      rcases Nat.eq_or_lt_of_le hgk with heq | hlt
      · exact le_of_eq
          (congrArg (fun q => ((aggregate votes).get q).count) (Fin.ext heq.symm))
      · exact List.pairwise_iff_get.mp (aggregate_counts_desc votes)
          ⟨_, hglen⟩ ⟨k, hk⟩ (Fin.mk_lt_mk.mpr hlt)
    · intro m hm hmg
      exact part1 m hm hmg
    · rw [aggregate_get_comp votes k hk, aggregate_get_dense votes _ hglen]
      omega

/-- Witness for C1: the 3,3,1 scenario instantiation. -/
theorem c1_sort_and_ranks_witness :
    scenarioVotes ≠ []
    ∧ (aggregate scenarioVotes).map (fun r => (r.video_id, r.rank_dense, r.rank_competition))
        = [("a", 1, 1), ("b", 2, 1), ("c", 3, 3)] :=
  ⟨by decide, (c1_sort_and_ranks scenarioVotes (by decide)).2.2.2.2.2⟩

/-! ## Invariants of the row-processing loop -/

theorem emitVotes_respondent (resp url : String) (res : Option (List VideoRecord)) :
    ∀ v ∈ emitVotes resp url res, v.respondent = resp := by
  intro v hv
  rcases res with _ | l
  · simp only [emitVotes] at hv
    obtain ⟨x, _, rfl⟩ := List.mem_map.mp hv
    rfl
  · rcases l with _ | ⟨r, rs⟩
    · simp only [emitVotes] at hv
      obtain ⟨x, _, rfl⟩ := List.mem_map.mp hv
      rfl
    · simp only [emitVotes] at hv
      obtain ⟨x, _, rfl⟩ := List.mem_map.mp hv
      rfl

theorem countP_const_respondent {l : List Vote} {resp : String}
    (h : ∀ v ∈ l, v.respondent = resp) (x : String) :
    l.countP (fun v => v.respondent == x) = if x = resp then l.length else 0 := by
  induction l with
  | nil => simp
  | cons v t ih =>
    have hv := h v (List.mem_cons_self v t)
    have ht := ih (fun w hw => h w (List.mem_cons_of_mem v hw))
    rw [List.countP_cons, ht]
    by_cases hx : x = resp
    · subst hx
      simp [hv]
    · have hb : (v.respondent == x) = false := by
        rw [hv]
        simpa using fun he => hx he.symm
      simp [hx, hb]

theorem bumpResp_keys (counts : List (String × Nat)) (resp : String) (k : Nat) :
    (bumpResp counts resp k).map Prod.fst = counts.map Prod.fst := by
  induction counts with
  | nil => rfl
  | cons q t ih =>
    show ((if q.1 = resp then (q.1, q.2 + k) else q) :: bumpResp t resp k).map Prod.fst
      = q.1 :: t.map Prod.fst
    rw [List.map_cons, ih]
    split_ifs <;> rfl

theorem counts_inv_step {oldVotes : List Vote} {counts : List (String × Nat)} (resp : String)
    (nv : List Vote) (hnv : ∀ v ∈ nv, v.respondent = resp)
    (hcounts : ∀ q ∈ counts, q.2 = oldVotes.countP (fun v => v.respondent == q.1))
    (hnone : ∀ r : String, r ∉ counts.map Prod.fst →
      oldVotes.countP (fun v => v.respondent == r) = 0)
    (hresp : resp ∈ counts.map Prod.fst) :
    (∀ q ∈ bumpResp counts resp nv.length,
        q.2 = (oldVotes ++ nv).countP (fun v => v.respondent == q.1))
    ∧ (∀ r : String, r ∉ (bumpResp counts resp nv.length).map Prod.fst →
        (oldVotes ++ nv).countP (fun v => v.respondent == r) = 0) := by
  constructor
  · intro q hq
    obtain ⟨q0, hq0, hq0eq⟩ := List.mem_map.mp hq
    rw [List.countP_append]
    by_cases hkey : q0.1 = resp
    · rw [if_pos hkey] at hq0eq
      subst hq0eq
      simp only
      rw [← hcounts q0 hq0, hkey, countP_const_respondent hnv resp, if_pos rfl]
    · rw [if_neg hkey] at hq0eq
      subst hq0eq
      rw [← hcounts q0 hq0, countP_const_respondent hnv q0.1, if_neg hkey]
      omega
  · intro r hr
    rw [bumpResp_keys] at hr
    have hrresp : r ≠ resp := by
      intro he
      exact hr (he ▸ hresp)
    rw [List.countP_append, hnone r hr, countP_const_respondent hnv r, if_neg hrresp]

theorem processUrl_spec (p : Providers) (resp url : String) (st : PState)
    (hinv : PInv p st) (hresp : resp ∈ st.counts.map Prod.fst) :
    PInv p (processUrl p resp st url)
    ∧ (processUrl p resp st url).votes
        = st.votes ++ emitVotes resp url (get_video_metadata p url).1
    ∧ (processUrl p resp st url).counts.map Prod.fst = st.counts.map Prod.fst
    ∧ ((processUrl p resp st url).log = st.log
        ∨ (processUrl p resp st url).log = st.log ++ [url]) := by
  obtain ⟨hnodup, hlogcache, hcache, hcounts, hnone⟩ := hinv
  rcases hc : st.cache url with _ | results
  · -- cache miss: resolve, store, log
    have hred : processUrl p resp st url
        = { votes := st.votes ++ emitVotes resp url (get_video_metadata p url).1,
            cache := fun u =>
              if u = url then some (get_video_metadata p url).1 else st.cache u,
            counts := bumpResp st.counts resp
              (emitVotes resp url (get_video_metadata p url).1).length,
            log := st.log ++ [url] } := by
      unfold processUrl
      rw [hc]
    have hmiss : url ∉ st.log := by
      intro hm
      exact (hlogcache url).mp hm hc
    obtain ⟨hq1, hq2⟩ := counts_inv_step resp
      (emitVotes resp url (get_video_metadata p url).1)
      (emitVotes_respondent resp url _) hcounts hnone hresp
    rw [hred]
    refine ⟨⟨?_, ?_, ?_, hq1, hq2⟩, rfl, bumpResp_keys _ _ _, Or.inr rfl⟩
    · rw [List.nodup_append]
      refine ⟨hnodup, List.nodup_singleton url, ?_⟩
      intro x hx hx2
      rw [List.mem_singleton] at hx2
      subst hx2
      exact hmiss hx
    · intro u
      by_cases hu : u = url
      · subst hu
        simp [List.mem_append]
      · rw [List.mem_append, List.mem_singleton]
        simp only [hu, or_false, if_neg hu]
        exact hlogcache u
    · intro u r h
      dsimp only at h
      by_cases hu : u = url
      · subst hu
        rw [if_pos rfl] at h
        injection h with h2
        exact h2.symm
      · rw [if_neg hu] at h
        exact hcache u r h
  · -- cache hit: reuse the stored result
    have hres : results = (get_video_metadata p url).1 := hcache url results hc
    have hred : processUrl p resp st url
        = { st with
            votes := st.votes ++ emitVotes resp url results,
            counts := bumpResp st.counts resp (emitVotes resp url results).length } := by
      unfold processUrl
      rw [hc]
    obtain ⟨hq1, hq2⟩ := counts_inv_step resp (emitVotes resp url results)
      (emitVotes_respondent resp url _) hcounts hnone hresp
    rw [hred]
    exact ⟨⟨hnodup, hlogcache, hcache, hq1, hq2⟩, by rw [hres], bumpResp_keys _ _ _, Or.inl rfl⟩

theorem registerResp_mem_self (counts : List (String × Nat)) (resp : String) :
    resp ∈ (registerResp counts resp).map Prod.fst := by
  unfold registerResp
  split_ifs with h
  · obtain ⟨q, hq, hqr⟩ := List.any_eq_true.mp h
    exact List.mem_map.mpr ⟨q, hq, by simpa using hqr⟩
  · rw [List.map_append]
    exact List.mem_append_right _ (by simp)

theorem registerResp_mono {counts : List (String × Nat)} {r : String} (resp : String)
    (hr : r ∈ counts.map Prod.fst) : r ∈ (registerResp counts resp).map Prod.fst := by
  unfold registerResp
  split_ifs with h
  · exact hr
  · rw [List.map_append]
    exact List.mem_append_left _ hr

theorem registerResp_inv (p : Providers) (st : PState) (resp : String) (hinv : PInv p st) :
    PInv p { st with counts := registerResp st.counts resp } := by
  obtain ⟨h1, h2, h3, h4, h5⟩ := hinv
  refine ⟨h1, h2, h3, ?_, ?_⟩
  · intro q hq
    unfold registerResp at hq
    split_ifs at hq with h
    · exact h4 q hq
    · rcases List.mem_append.mp hq with hq2 | hq2
      · exact h4 q hq2
      · rw [List.mem_singleton] at hq2
        subst hq2
        have hnot : resp ∉ st.counts.map Prod.fst := by
          intro hmem
          obtain ⟨q0, hq0, hq0e⟩ := List.mem_map.mp hmem
          exact h (List.any_eq_true.mpr ⟨q0, hq0, by simpa using hq0e⟩)
        exact (h5 resp hnot).symm
  · intro r hr
    apply h5
    intro hmem
    exact hr (registerResp_mono resp hmem)

theorem foldUrls_spec (p : Providers) (resp : String) :
    ∀ (urls : List String) (st : PState), PInv p st → resp ∈ st.counts.map Prod.fst →
      PInv p (urls.foldl (processUrl p resp) st)
      ∧ (urls.foldl (processUrl p resp) st).votes
          = st.votes ++ urls.flatMap (fun u => emitVotes resp u (get_video_metadata p u).1)
      ∧ (urls.foldl (processUrl p resp) st).counts.map Prod.fst = st.counts.map Prod.fst
  | [], st, hinv, _ => ⟨hinv, by simp, rfl⟩
  | u :: us, st, hinv, hresp => by
    obtain ⟨hinv1, hvotes1, hkeys1, _⟩ := processUrl_spec p resp u st hinv hresp
    obtain ⟨hinv2, hvotes2, hkeys2⟩ :=
      foldUrls_spec p resp us (processUrl p resp st u) hinv1 (hkeys1 ▸ hresp)
    refine ⟨hinv2, ?_, ?_⟩
    · show (us.foldl (processUrl p resp) (processUrl p resp st u)).votes = _
      rw [hvotes2, hvotes1, List.flatMap_cons, List.append_assoc]
    · show (us.foldl (processUrl p resp) (processUrl p resp st u)).counts.map Prod.fst = _
      rw [hkeys2, hkeys1]

theorem processRow_spec (p : Providers) (st : PState) (i : Nat) (row : List String)
    (hinv : PInv p st) :
    PInv p (processRow p st i row)
    ∧ (processRow p st i row).votes = st.votes ++ pureRowVotes p i row
    ∧ (∀ r, r ∈ st.counts.map Prod.fst → r ∈ (processRow p st i row).counts.map Prod.fst)
    ∧ respondentOf row i ∈ (processRow p st i row).counts.map Prod.fst := by
  have hreg := registerResp_inv p st (respondentOf row i) hinv
  have hrmem := registerResp_mem_self st.counts (respondentOf row i)
  obtain ⟨hinv2, hvotes2, hkeys2⟩ := foldUrls_spec p (respondentOf row i) (urlsOf row)
    { st with counts := registerResp st.counts (respondentOf row i) } hreg hrmem
  refine ⟨hinv2, hvotes2, ?_, ?_⟩
  · intro r hr
    show r ∈ ((urlsOf row).foldl
      (processUrl p (respondentOf row i))
      { st with counts := registerResp st.counts (respondentOf row i) }).counts.map Prod.fst
    rw [hkeys2]
    exact registerResp_mono _ hr
  · show respondentOf row i ∈ ((urlsOf row).foldl
      (processUrl p (respondentOf row i))
      { st with counts := registerResp st.counts (respondentOf row i) }).counts.map Prod.fst
    rw [hkeys2]
    exact hrmem

theorem runRowsFrom_spec (p : Providers) :
    ∀ (rows : List (List String)) (i : Nat) (st : PState), PInv p st →
      PInv p (runRowsFrom p i st rows)
      ∧ (runRowsFrom p i st rows).votes = st.votes ++ pureVotesFrom p i rows
      ∧ (∀ r, r ∈ st.counts.map Prod.fst →
          r ∈ (runRowsFrom p i st rows).counts.map Prod.fst)
      ∧ (∀ k row, rows[k]? = some row →
          respondentOf row (i + k) ∈ (runRowsFrom p i st rows).counts.map Prod.fst)
  | [], i, st, hinv => by
    refine ⟨hinv, by simp [runRowsFrom, pureVotesFrom], fun r hr => hr, ?_⟩
    intro k row hk
    simp at hk
  | row :: rest, i, st, hinv => by
    obtain ⟨hinv1, hvotes1, hmono1, hrmem1⟩ := processRow_spec p st i row hinv
    obtain ⟨hinv2, hvotes2, hmono2, hreg2⟩ :=
      runRowsFrom_spec p rest (i + 1) (processRow p st i row) hinv1
    refine ⟨hinv2, ?_, ?_, ?_⟩
    · show (runRowsFrom p (i + 1) (processRow p st i row) rest).votes = _
      rw [hvotes2, hvotes1, List.append_assoc]
      rfl
    · intro r hr
      exact hmono2 r (hmono1 r hr)
    · intro k row2 hk
      match k with
      | 0 =>
        rw [List.getElem?_cons_zero] at hk
        injection hk with hk
        subst hk
        have : i + 0 = i := by omega
        rw [this]
        exact hmono2 _ (hrmem1)
      | k + 1 =>
        rw [List.getElem?_cons_succ] at hk
        have he : i + (k + 1) = (i + 1) + k := by omega
        rw [he]
        exact hreg2 k row2 hk

theorem initState_inv (p : Providers) : PInv p initState := by
  refine ⟨List.nodup_nil, ?_, ?_, ?_, ?_⟩
  · intro u
    simp [initState]
  · intro u r h
    simp [initState] at h
  · intro q hq
    simp [initState] at hq
  · intro r _
    rfl

/-- C2: within one run, the resolver is invoked at most once per (stripped)
URL string — the call log has no repeats — every cached entry (including
cached failures) is exactly the resolver's answer for that URL, and the
emitted votes coincide with the cache-free reference in which every
occurrence is resolved afresh: all occurrences of a URL observe the
identical result and their votes carry identical title/uploader/date. -/
theorem c2_cache_idempotence (p : Providers) (rows : List (List String)) :
    (runRows p rows).log.Nodup
    ∧ (∀ u : String, (runRows p rows).log.count u ≤ 1)
    ∧ (∀ u r, (runRows p rows).cache u = some r → r = (get_video_metadata p u).1)
    ∧ (runRows p rows).votes = pureVotesFrom p 0 rows := by
  obtain ⟨⟨hnodup, _, hcache, _, _⟩, hvotes, _, _⟩ :=
    runRowsFrom_spec p rows 0 initState (initState_inv p)
  exact ⟨hnodup, fun u => List.nodup_iff_count_le_one.mp hnodup u, hcache,
    by simpa using hvotes⟩

/-- C10: URL cells are stripped before cache lookup and resolution: the
resolver's result depends only on the stripped text, the cache keys are
exactly the stripped URL fields, and a stripped URL is resolved at most
once in a run, so two raw URLs differing only in surrounding whitespace
share one cache entry and one resolution. -/
theorem c10_strip_before_cache (p : Providers) (rows : List (List String)) (u1 u2 : String)
    (h : pyStrip u1 = pyStrip u2) :
    get_video_metadata p u1 = get_video_metadata p u2
    ∧ (∀ row : List String,
        urlsOf row = (([urlField row 3, urlField row 4]).map pyStrip).filter (fun u => u != ""))
    ∧ (runRows p rows).log.count (pyStrip u1) ≤ 1 := by
  obtain ⟨⟨hnodup, _, _, _, _⟩, _, _, _⟩ :=
    runRowsFrom_spec p rows 0 initState (initState_inv p)
  refine ⟨?_, fun row => rfl, List.nodup_iff_count_le_one.mp hnodup _⟩
  unfold get_video_metadata
  rw [h]

/-- Witness for C10: a padded and an unpadded copy of the same URL share
the one cache entry. -/
theorem c10_strip_before_cache_witness :
    pyStrip " sm1 " = pyStrip "sm1"
    ∧ get_video_metadata failingProviders " sm1 " = get_video_metadata failingProviders "sm1"
    ∧ (runRows failingProviders [["x", "A", "z", " sm1 ", "sm1"]]).log.count
        (pyStrip " sm1 ") ≤ 1 := by
  have h := c10_strip_before_cache failingProviders [["x", "A", "z", " sm1 ", "sm1"]]
    " sm1 " "sm1" (by decide)
  exact ⟨by decide, h.1, h.2.2⟩

/-- C4: when the identifier extractor finds at least one id in the URL, the
resolver keys provider A on the first one; if that lookup succeeds the
result is exactly the single-element list with provider A's record and
provider B (yt-dlp) is not consulted (the flag is `false`). -/
theorem c4_provider_a_short_circuit (p : Providers) (url vid : String) (rest : List String)
    (hids : extractIds (pyStrip url) = vid :: rest) (d : VideoRecord)
    (hd : p.nicoApi vid = some d) :
    get_video_metadata p url = (some [d], false) := by
  unfold get_video_metadata
  dsimp only
  rw [hids]
  dsimp only
  rw [hd]

/-- Witness for C4: a URL containing `sm1` short-circuits on the niconico
API record. -/
theorem c4_provider_a_short_circuit_witness :
    get_video_metadata stubNicoProviders "x sm1 y"
      = (some [{ video_id := some "sm1", title := "Tsm1", uploader := "Usm1",
                 upload_date := "2024-01-01 00:00:00",
                 url := "https://www.nicovideo.jp/watch/sm1" }], false) :=
  c4_provider_a_short_circuit stubNicoProviders "x sm1 y" "sm1" [] (by decide) _ rfl

/-- C5: when the resolution observed for a URL is the unresolved outcome
(freshly computed or cached), the row processor emits one degraded vote
per identifier the extractor finds in the URL text, with the id as
`video_id` and the fixed sentinel strings; with no identifier the URL
contributes no vote. -/
theorem c5_unresolved_fallback (p : Providers) (resp url : String) (st : PState)
    (hcase : (st.cache url = none ∧ (get_video_metadata p url).1 = none)
      ∨ st.cache url = some none) :
    (processUrl p resp st url).votes
      = st.votes ++ (extractIds url).map (degradedVote resp)
    ∧ (extractIds url = [] → (processUrl p resp st url).votes = st.votes) := by
  have hv : (processUrl p resp st url).votes
      = st.votes ++ (extractIds url).map (degradedVote resp) := by
    rcases hcase with ⟨hc, hres⟩ | hc
    · unfold processUrl
      rw [hc]
      dsimp only
      rw [hres]
      rfl
    · unfold processUrl
      rw [hc]
      rfl
  refine ⟨hv, ?_⟩
  intro he
  rw [hv, he]
  simp

/-- Witness for C5: with all providers failing, a URL containing `sm77`
yields exactly the degraded vote, and a URL with no identifier yields no
vote. -/
theorem c5_unresolved_fallback_witness :
    (processUrl failingProviders "A" initState "w/sm77").votes
      = initState.votes ++ (extractIds "w/sm77").map (degradedVote "A")
    ∧ (processUrl failingProviders "A" initState "nothing").votes = initState.votes := by
  constructor
  · exact (c5_unresolved_fallback failingProviders "A" "w/sm77" initState
      (Or.inl ⟨rfl, by decide⟩)).1
  · exact (c5_unresolved_fallback failingProviders "A" "nothing" initState
      (Or.inl ⟨rfl, by decide⟩)).2 (by decide)

/-- C8: an empty input, or an input whose processing yields no vote at
all, makes `process_data` return the distinguishable no-data sentinel
`(none, [])` instead of a ranking table. -/
theorem c8_no_data_sentinel (p : Providers) (rows : List (List String))
    (h : rows = [] ∨ (runRows p rows).votes = []) :
    process_data p rows = (none, []) := by
  rcases h with rfl | hv
  · rfl
  · unfold process_data
    by_cases h1 : rows.length = 0
    · rw [if_pos h1]
    · rw [if_neg h1]
      dsimp only
      rw [if_pos hv]

/-- Witness for C8: the empty input and a one-row input with no URLs both
give the sentinel. -/
theorem c8_no_data_sentinel_witness :
    process_data failingProviders [] = (none, [])
    ∧ process_data failingProviders [["x", "A"]] = (none, []) :=
  ⟨c8_no_data_sentinel failingProviders [] (Or.inl rfl),
   c8_no_data_sentinel failingProviders [["x", "A"]] (Or.inr (by decide))⟩

/-- Counterexample for C9: a processed row whose respondent emits zero
votes is registered with count 0, yet when the whole run produces no vote
the pipeline returns `(None, [])` and the respondent does not appear in
the advisory list. -/
theorem c9_counterexample :
    (runRows failingProviders [["x", "A"]]).counts = [("A", 0)]
    ∧ (process_data failingProviders [["x", "A"]]).2 = []
    ∧ "A" ∉ (process_data failingProviders [["x", "A"]]).2 := by
  refine ⟨by decide, by decide, by decide⟩

/-- C9 (amended): provided at least one vote was emitted in the run, every
processed row whose respondent accumulated zero votes appears in the
quota-mismatch advisory list (0 differs from the quota of 10). -/
theorem c9_zero_vote_advisory (p : Providers) (rows : List (List String))
    (k : Nat) (row : List String) (hrow : rows[k]? = some row)
    (hvotes : (runRows p rows).votes ≠ [])
    (h0 : (runRows p rows).votes.countP
        (fun v => v.respondent == respondentOf row k) = 0) :
    respondentOf row k ∈ (process_data p rows).2 := by
  obtain ⟨⟨_, _, _, hcounts, _⟩, _, _, hreg⟩ :=
    runRowsFrom_spec p rows 0 initState (initState_inv p)
  have hmem : respondentOf row k ∈ (runRows p rows).counts.map Prod.fst := by
    have := hreg k row hrow
    simpa using this
  obtain ⟨q, hq, hqe⟩ := List.mem_map.mp hmem
  have hq2 : q.2 = 0 := by
    rw [hcounts q hq, hqe]
    exact h0
  have hlen : rows.length ≠ 0 := by
    obtain ⟨hk, _⟩ := List.getElem?_eq_some.mp hrow
    omega
  unfold process_data
  rw [if_neg hlen]
  dsimp only
  rw [if_neg hvotes]
  refine List.mem_map.mpr ⟨q, List.mem_filter.mpr ⟨hq, ?_⟩, hqe⟩
  rw [hq2]
  decide

/-- Witness for C9 (amended): respondent B, whose row yields no vote while
respondent A's vote makes the run non-empty, appears in the advisory
list. -/
theorem c9_zero_vote_advisory_witness :
    respondentOf ["x", "B"] 1 ∈ (process_data stubNicoProviders
      [["x", "A", "z", "sm1", ""], ["x", "B"]]).2 :=
  c9_zero_vote_advisory stubNicoProviders [["x", "A", "z", "sm1", ""], ["x", "B"]]
    1 ["x", "B"] (by decide) (by decide) (by decide)

/-- Counterexample for C6: two distinct rows (ordinals 0 and 1) whose
respondent field is absent (the row has no column 1) both receive the
constant label `匿名`, and the run merges them into a single counter
entry — the anonymous label does not always incorporate the ordinal. -/
theorem c6_counterexample :
    respondentOf [] 0 = "匿名"
    ∧ respondentOf [] 1 = "匿名"
    ∧ respondentOf [] 0 = respondentOf [] 1
    ∧ (runRows failingProviders [[], []]).counts = [("匿名", 0)] := by
  refine ⟨by decide, by decide, by decide, by decide⟩

/-- C6 (amended): a row whose respondent cell carries the missing-value
marker gets the label `匿名_{i}` built from its ordinal, and two such rows
with different ordinals never share an identity; but a row lacking the
respondent column entirely gets the constant `匿名`, which is shared. -/
theorem c6_anonymous_labels (r1 r2 : List String) (i j : Nat)
    (h1 : r1.getD 1 "匿名" = "nan") (h2 : r2.getD 1 "匿名" = "nan") (hij : i ≠ j) :
    respondentOf r1 i = "匿名_" ++ natStr i
    ∧ respondentOf r2 j = "匿名_" ++ natStr j
    ∧ respondentOf r1 i ≠ respondentOf r2 j
    ∧ (∀ row : List String, row.length ≤ 1 → ∀ n : Nat, respondentOf row n = "匿名") := by
  have e1 : respondentOf r1 i = "匿名_" ++ natStr i := by
    show (if r1.getD 1 "匿名" = "nan" then "匿名_" ++ natStr i else r1.getD 1 "匿名")
      = "匿名_" ++ natStr i
    rw [h1, if_pos rfl]
  have e2 : respondentOf r2 j = "匿名_" ++ natStr j := by
    show (if r2.getD 1 "匿名" = "nan" then "匿名_" ++ natStr j else r2.getD 1 "匿名")
      = "匿名_" ++ natStr j
    rw [h2, if_pos rfl]
  refine ⟨e1, e2, ?_, ?_⟩
  · rw [e1, e2]
    intro he
    exact hij (natStr_inj (string_append_left_cancel he))
  · intro row hlen n
    show (if row.getD 1 "匿名" = "nan" then "匿名_" ++ natStr n else row.getD 1 "匿名")
      = "匿名"
    rw [List.getD_eq_default]
    · rw [if_neg (by decide)]
    · exact hlen

/-- Witness for C6 (amended): two rows with `nan` respondent cells at
ordinals 0 and 1 get the distinct labels `匿名_0` and `匿名_1`. -/
theorem c6_anonymous_labels_witness :
    respondentOf ["x", "nan"] 0 = "匿名_0"
    ∧ respondentOf ["y", "nan"] 1 = "匿名_1"
    ∧ respondentOf ["x", "nan"] 0 ≠ respondentOf ["y", "nan"] 1 := by
  obtain ⟨e1, e2, hne, _⟩ := c6_anonymous_labels ["x", "nan"] ["y", "nan"] 0 1
    (by decide) (by decide) (by decide)
  refine ⟨by rw [e1]; decide, by rw [e2]; decide, hne⟩

theorem strptimeYmd_length {s : String} {x : Nat × Nat × Nat}
    (h : strptimeYmd s = some x) : s.length = 8 := by
  unfold strptimeYmd at h
  by_cases hc : (s.data.length = 8 && s.data.all Char.isDigit) = true
  · have hc2 := hc
    simp only [Bool.and_eq_true, decide_eq_true_eq] at hc2
    exact hc2.1
  · rw [if_neg hc] at h
    exact absurd h (by simp)

/-- Counterexample for C7: `"99999999"` is an 8-digit pure-numeric string,
yet `format_date` returns it unchanged (month 99 makes `strptime` raise),
so it is not reformatted into a dashed `YYYY-MM-DD` shape. -/
theorem c7_counterexample :
    "99999999".length = 8
    ∧ "99999999".data.all Char.isDigit = true
    ∧ format_date (some "99999999") = "99999999"
    ∧ '-' ∉ (format_date (some "99999999")).data := by
  refine ⟨by decide, by decide, by decide, by decide⟩

/-- C7 (amended): a missing value yields the fixed sentinel `"[不明]"`
(as does the empty string); an 8-digit numeric string that denotes a
valid calendar date is reformatted to dashed `YYYY-MM-DD`; every other
string — including 8-digit numerics that are not valid dates — is
returned unchanged. -/
theorem c7_date_normalization :
    format_date none = "[不明]"
    ∧ format_date (some "") = "[不明]"
    ∧ (∀ s y m d, strptimeYmd s = some (y, m, d) →
        format_date (some s) = natStr y ++ "-" ++ pad2 m ++ "-" ++ pad2 d)
    ∧ (∀ s, s ≠ "" → strptimeYmd s = none → format_date (some s) = s) := by
  refine ⟨rfl, rfl, ?_, ?_⟩
  · intro s y m d h
    have hlen : s.length = 8 := strptimeYmd_length h
    have hne : s ≠ "" := by
      intro he
      subst he
      simp at hlen
    unfold format_date
    dsimp only
    rw [if_neg hne, if_pos hlen, h]
  · intro s hne h
    unfold format_date
    dsimp only
    rw [if_neg hne]
    by_cases hlen : s.length = 8
    · rw [if_pos hlen, h]
    · rw [if_neg hlen]

/-- Witness for C7 (amended): a valid 8-digit date is reformatted, another
shape passes through, a missing value gives the sentinel. -/
theorem c7_date_normalization_witness :
    format_date (some "20210131") = "2021-01-31"
    ∧ format_date (some "2021-05-01") = "2021-05-01"
    ∧ format_date none = "[不明]" := by
  obtain ⟨h1, _, h3, h4⟩ := c7_date_normalization
  refine ⟨?_, h4 "2021-05-01" (by decide) (by decide), h1⟩
  rw [h3 "20210131" 2021 1 31 (by decide)]
  decide
